import Mathlib

/-!
Verification development for the NEST simulator repository.

Part A embeds the SLI interpreter core described by the specification.
The interpreter sources (interpret.cc, token.cc, scanner.cc, parser.cc,
dictstack.cc, typechk.cc, name.cc, ...) are listed in the sli build file
but are not present in the source tree, so the definitions in Part A are
modelled from the specification text.

Part B embeds the code that is present in the source tree:
nestkernel/event.h (Event::get_rel_delivery_steps) and the ht_neuron
header (ht_neuron::handles_test_event).
-/

namespace Sli

/-- Modelled from the spec: the Token / Datum model of §3 of the spec
(token.h / datum.h are missing from the source tree).  A Token wraps one
Datum together with its literal/executable flags; here the flag is folded
into the constructors: `litname` is a literal symbol Token, `execname` an
executable name Token, every other constructor is a literal.  Floats are
decimal-exact: `float m fd` denotes m / 10 ^ fd with `fd` digits after
the point.  `popframe` is the engine-internal end-of-procedure marker. -/
inductive Tok where
  | bool (b : Bool)
  | int (n : Int)
  | float (m : Int) (fd : Nat)
  | str (s : List Char)
  | litname (s : List Char)
  | execname (s : List Char)
  | array (xs : List Tok)
  | proc (body : List Tok)
  | popframe

mutual

/-- Structural size of a Token, used for induction over the nested
`array` / `proc` constructors. -/
def tsize : Tok → Nat
  | .array xs => 1 + tlsize xs
  | .proc xs => 1 + tlsize xs
  | _ => 1

/-- Structural size of a Token list. -/
def tlsize : List Tok → Nat
  | [] => 0
  | x :: xs => tsize x + tlsize xs

end

mutual

/-- Modelled from the spec: the deep-equality test every Datum variant
exposes per §3/§4.1 of the spec (datum.h is missing from the source
tree).  It is structural equality of the value trees. -/
def deq : Tok → Tok → Bool
  | .bool a, .bool b => a = b
  | .int a, .int b => a = b
  | .float a fa, .float b fb => a = b && fa = fb
  | .str a, .str b => a = b
  | .litname a, .litname b => a = b
  | .execname a, .execname b => a = b
  | .array a, .array b => deqList a b
  | .proc a, .proc b => deqList a b
  | .popframe, .popframe => true
  | _, _ => false

/-- Deep equality on Token lists. -/
def deqList : List Tok → List Tok → Bool
  | [], [] => true
  | a :: as_, b :: bs => deq a b && deqList as_ bs
  | _, _ => false

end

end Sli

namespace SliNames

/-- Modelled from the spec: the Name Table of §4.2 of the spec (name.cc /
name.h are missing from the source tree).  The table is the ordered list
of strings interned so far; a Name identity is the position at which its
string was first interned. -/
structure NameTable where
  strings : List String

/-- First position of `s` in the table, if present. -/
def lookupId : List String → String → Option Nat
  | [], _ => none
  | x :: xs, s => if x = s then some 0 else (lookupId xs s).map (· + 1)

/-- Modelled from the spec: `intern(string) -> Name` of §4.2: return the
identity of an already-interned string, otherwise append the string and
return the fresh identity. -/
def intern (t : NameTable) (s : String) : NameTable × Nat :=
  match lookupId t.strings s with
  | some i => (t, i)
  | none => (⟨t.strings ++ [s]⟩, t.strings.length)

end SliNames

namespace SliCow

/-- Modelled from the spec: a reference-counted Datum cell (§3 of the
spec: a Token's Datum is shared copy-on-write; token.h / datum.h are
missing from the source tree). -/
structure Cell where
  val : Sli.Tok
  rc : Nat

/-- Modelled from the spec: the shared store of Datum cells.  A Token
handle is an index into the store. -/
structure Heap where
  cells : List Cell

/-- Observable value of the Token handle `t`. -/
def getVal (h : Heap) (t : Nat) : Option Sli.Tok :=
  h.cells[t]?.map (fun c => c.val)

/-- Modelled from the spec: copying a Token is O(1) and increments the
reference count of the shared Datum (§3). -/
def clone (h : Heap) (t : Nat) : Heap × Nat :=
  match h.cells[t]? with
  | some c => (⟨h.cells.set t { c with rc := c.rc + 1 }⟩, t)
  | none => (h, t)

/-- Modelled from the spec: in-place mutation of the Datum behind a
Token first checks the reference count and clones if shared (count > 1),
per §3 of the spec.  Returns the heap and the handle through which the
mutated value is reachable. -/
def mutate (h : Heap) (t : Nat) (f : Sli.Tok → Sli.Tok) : Heap × Nat :=
  match h.cells[t]? with
  | none => (h, t)
  | some c =>
    if 2 ≤ c.rc then
      (⟨h.cells.set t { c with rc := c.rc - 1 } ++ [⟨f c.val, 1⟩]⟩, h.cells.length)
    else
      (⟨h.cells.set t ⟨f c.val, 1⟩⟩, t)

end SliCow

namespace Sli

/-- Modelled from the spec: the runtime type tags consumed by the Trie
Dispatcher (§3/§4.4 of the spec; typechk.h / slitype.h are missing from
the source tree). -/
inductive TypeTag where
  | boolT
  | intT
  | floatT
  | strT
  | nameT
  | arrayT
  | procT
  | markT
deriving DecidableEq, Repr

/-- Type tag of a Token. -/
def tagOf : Tok → TypeTag
  | .bool _ => .boolT
  | .int _ => .intT
  | .float _ _ => .floatT
  | .str _ => .strT
  | .litname _ => .nameT
  | .execname _ => .nameT
  | .array _ => .arrayT
  | .proc _ => .procT
  | .popframe => .markT

/-- Modelled from the spec: the error-condition taxonomy of §7 of the
spec (sliexceptions.h is missing from the source tree). -/
inductive Cond where
  | typeMismatch
  | undefinedOperator
  | argumentUnderflow
  | syntaxError
  | notExecutable
  | hostError
deriving DecidableEq, Repr

/-- Modelled from the spec: one dictionary-stack frame (§3/§4.3 of the
spec; dictstack.h is missing from the source tree).  `binds` is the
symbol-to-Token mapping (newest binding first), `handler` marks a frame
explicitly registered as a condition handler (§7), and `opDepth` is the
Operand Stack depth recorded when the frame was entered. -/
structure Frame where
  binds : List (List Char × Tok)
  handler : Bool
  opDepth : Nat

/-- Modelled from the spec: a trie terminal binding of the Trie
Dispatcher (§4.4): operator name, argument-type signature listed from
the top of the Operand Stack downward, and the native implementation,
which receives the Operand Stack and the Dictionary Stack and returns
their new values plus a token sequence to splice onto the Execution
Stack (empty for plain operators, the procedure body for `exec`). -/
structure OpDef where
  name : List Char
  sig : List TypeTag
  impl : List Tok → List Frame →
    Except Cond (List Tok × List Frame × List Tok)

/-- The registration table: append-only list of trie terminals. -/
def Registry : Type := List OpDef

/-- Does a registered signature match the tags of the topmost operands?
The signature must agree with the leading tags (top of stack first). -/
def matchesSig : List TypeTag → List TypeTag → Bool
  | [], _ => true
  | _ :: _, [] => false
  | s :: ss, t :: ts => if s = t then matchesSig ss ts else false

/-- Most specific registered binding whose signature matches the
operand tags: among matches, the one with the longest signature. -/
def pickBest (cands : List OpDef) (tags : List TypeTag) : Option OpDef :=
  cands.foldl
    (fun best o =>
      if matchesSig o.sig tags then
        match best with
        | none => some o
        | some b => if b.sig.length < o.sig.length then some o else some b
      else best)
    none

/-- Length of the shortest registered signature of a candidate list. -/
def minSigLen (cands : List OpDef) : Nat :=
  match cands with
  | [] => 0
  | o :: os => os.foldl (fun a b => Nat.min a b.sig.length) o.sig.length

/-- Modelled from the spec: the Trie Dispatcher of §4.4 (typechk.cc /
triedatum.cc are missing from the source tree).  An unregistered name
fails with UndefinedOperator; fewer operands than the shortest
registered signature fail with ArgumentUnderflow; otherwise, if no
registered signature matches the operand types, the dispatch fails with
TypeMismatch. -/
def dispatch (reg : List OpDef) (n : List Char) (tags : List TypeTag) :
    Except Cond OpDef :=
  match reg.filter (fun o => o.name == n) with
  | [] => Except.error Cond.undefinedOperator
  | o :: os =>
    match pickBest (o :: os) tags with
    | some b => Except.ok b
    | none =>
      if tags.length < minSigLen (o :: os) then Except.error Cond.argumentUnderflow
      else Except.error Cond.typeMismatch

/-- Modelled from the spec: the Execution Engine state of §4.6:
Execution Stack (front = next token), Operand Stack (head = top),
Dictionary Stack (head = top frame, bottom = permanent global), and the
pending condition reported after error unwinding. -/
structure Machine where
  es : List Tok
  os : List Tok
  ds : List Frame
  err : Option Cond

/-- Lookup inside one frame's bindings. -/
def lookupBinds : List (List Char × Tok) → List Char → Option Tok
  | [], _ => none
  | (k, v) :: bs, n => if k = n then some v else lookupBinds bs n

/-- Modelled from the spec: `lookup` of §4.3 — search the frames
top-to-bottom and return the first binding found. -/
def lookupDS : List Frame → List Char → Option Tok
  | [], _ => none
  | f :: fs, n =>
    match lookupBinds f.binds n with
    | some v => some v
    | none => lookupDS fs n

/-- Modelled from the spec: `define` of §4.3 — insert/overwrite the
binding in the top frame (the newest binding shadows older ones). -/
def defineTop (ds : List Frame) (n : List Char) (v : Tok) : List Frame :=
  match ds with
  | [] => []
  | f :: fs => { f with binds := (n, v) :: f.binds } :: fs

/-- Pop frames until the nearest frame marked as a handler; return it
with the frames below it, or none when no handler exists. -/
def dropToHandler : List Frame → Option (Frame × List Frame)
  | [] => none
  | f :: fs => if f.handler then some (f, fs) else dropToHandler fs

/-- The permanent bottom frame of a dictionary stack. -/
def bottomOnly : List Frame → List Frame
  | [] => []
  | [f] => [f]
  | _ :: fs => bottomOnly fs

/-- Modelled from the spec: error unwinding (§4.6/§7): a raised
condition pops every frame up to the nearest enclosing handler frame,
restores the Operand Stack to the depth recorded at handler entry and
abandons the remaining Execution Stack; with no handler it unwinds to
the top level (only the permanent global frame survives) and the
condition is reported. -/
def unwind (c : Cond) (m : Machine) : Machine :=
  match dropToHandler m.ds with
  | some (h, rest) =>
    { es := [], os := m.os.drop (m.os.length - h.opDepth), ds := h :: rest,
      err := some c }
  | none => { es := [], os := m.os, ds := bottomOnly m.ds, err := some c }

/-- A fresh (non-handler) dictionary frame recording the Operand Stack
depth at entry. -/
def newFrame (opDepth : Nat) : Frame :=
  { binds := [], handler := false, opDepth := opDepth }

/-- Modelled from the spec: one cycle step of the Execution Engine
(§4.6; interpret.cc is missing from the source tree).  Pop the front
Token of the Execution Stack: literals are pushed onto the Operand
Stack; an executable name is looked up in the Dictionary Stack first
(a bound procedure body is spliced under a fresh frame closed by the
`popframe` marker, another bound executable is re-executed, a bound
literal is pushed), otherwise dispatched through the trie; a resolved
implementation may rewrite the stacks and splice a procedure body; a
raised condition unwinds. -/
def step (reg : List OpDef) (m : Machine) : Machine :=
  if m.err.isSome then m
  else
    match m.es with
    | [] => m
    | t :: rest =>
      match t with
      | .popframe =>
        match m.ds with
        | _ :: f2 :: fs => { m with es := rest, ds := f2 :: fs }
        | _ => { m with es := rest }
      | .execname n =>
        match lookupDS m.ds n with
        | some bt =>
          match bt with
          | .proc body =>
            { m with es := body ++ .popframe :: rest,
                     ds := newFrame m.os.length :: m.ds }
          | .execname n2 => { m with es := .execname n2 :: rest }
          | other => { m with es := rest, os := other :: m.os }
        | none =>
          match dispatch reg n (m.os.map tagOf) with
          | .ok op =>
            match op.impl m.os m.ds with
            | .ok (os2, ds2, []) => { m with es := rest, os := os2, ds := ds2 }
            | .ok (os2, ds2, sp) =>
              { es := sp ++ .popframe :: rest, os := os2,
                ds := newFrame os2.length :: ds2, err := none }
            | .error c => unwind c { m with es := rest }
          | .error c => unwind c { m with es := rest }
      | lit => { m with es := rest, os := lit :: m.os }

/-- Run the engine for a bounded number of cycle steps. -/
def run (reg : List OpDef) : Nat → Machine → Machine
  | 0, m => m
  | n + 1, m => run reg n (step reg m)

/-- Initial machine: the parsed token sequence on the Execution Stack,
empty Operand Stack, and the permanent (empty, non-handler) global
frame. -/
def initM (ts : List Tok) : Machine :=
  { es := ts, os := [], ds := [{ binds := [], handler := false, opDepth := 0 }],
    err := none }

/-- The operator name `add`. -/
def addName : List Char := ['a', 'd', 'd']

/-- The operator name `exec`. -/
def execName : List Char := ['e', 'x', 'e', 'c']

/-- The operator name `def`. -/
def defName : List Char := ['d', 'e', 'f']

/-- Modelled from the spec: the native operator `add`, registered for
the signature [Integer, Integer] -> Integer (slimath.cc is missing from
the source tree): pop two integers, push their sum. -/
def addOp : OpDef :=
  { name := addName, sig := [.intT, .intT],
    impl := fun os ds =>
      match os with
      | .int a :: .int b :: r => Except.ok (.int (b + a) :: r, ds, [])
      | _ => Except.error Cond.typeMismatch }

/-- Modelled from the spec: the native operator `exec` (slicontrol.cc is
missing from the source tree): pop a procedure Token and splice its body
onto the Execution Stack — the explicit invocation of a procedure
literal (§4.5/§4.6). -/
def execOp : OpDef :=
  { name := execName, sig := [.procT],
    impl := fun os ds =>
      match os with
      | .proc body :: r => Except.ok (r, ds, body)
      | _ => Except.error Cond.typeMismatch }

/-- Modelled from the spec: the native operator `def` (slidict.cc is
missing from the source tree): pop a value and a literal name and bind
the name to the value in the top dictionary frame (§4.3). -/
def defOp : OpDef :=
  { name := defName, sig := [],
    impl := fun os ds =>
      match os with
      | v :: .litname n :: r => Except.ok (r, defineTop ds n v, [])
      | _ => Except.error Cond.typeMismatch }

/-- The base registry used by the scenario claims: `add`, `exec` and
`def`. -/
def baseReg : List OpDef := [addOp, execOp, defOp]

/-- Decimal digit character. -/
def digitChar : Nat → Char
  | 0 => '0'
  | 1 => '1'
  | 2 => '2'
  | 3 => '3'
  | 4 => '4'
  | 5 => '5'
  | 6 => '6'
  | 7 => '7'
  | 8 => '8'
  | _ => '9'

/-- Numeric value of a digit character. -/
def charToDigit (c : Char) : Nat := c.toNat - 48

/-- Characters a symbolic name may consist of. -/
def isNameChar (c : Char) : Bool := c.isAlphanum || c = '_'

/-- Decimal digits of `n` (empty for 0), most significant first; any
fuel of at least `n` is enough. -/
def natDigits : Nat → Nat → List Char
  | 0, _ => []
  | fuel + 1, n =>
    if n = 0 then [] else natDigits fuel (n / 10) ++ [digitChar (n % 10)]

/-- Decimal rendering of a natural number. -/
def renderNat (n : Nat) : List Char :=
  if n = 0 then ['0'] else natDigits n n

/-- Numeric value of a digit string (most significant first). -/
def digitsToNat (ds : List Char) : Nat :=
  ds.foldl (fun a c => 10 * a + charToDigit c) 0

/-- Left-pad a digit string with zeros to at least `k` characters. -/
def padZeros (k : Nat) (l : List Char) : List Char :=
  List.replicate (k - l.length) '0' ++ l

/-- Decimal rendering of an integer. -/
def renderInt (n : Int) : List Char :=
  (if n < 0 then ['-'] else []) ++ renderNat n.natAbs

/-- Decimal rendering of the float `m / 10 ^ fd`: the digits of `m`
padded to at least `fd + 1` characters, with the point inserted before
the last `fd` of them. -/
def renderFloat (m : Int) (fd : Nat) : List Char :=
  (if m < 0 then ['-'] else []) ++
    (padZeros (fd + 1) (renderNat m.natAbs)).take
        ((padZeros (fd + 1) (renderNat m.natAbs)).length - fd) ++
      '.' :: (padZeros (fd + 1) (renderNat m.natAbs)).drop
        ((padZeros (fd + 1) (renderNat m.natAbs)).length - fd)

/-- String-literal escaping: the delimiters and the escape character
itself are preceded by a backslash. -/
def escChar (c : Char) : List Char :=
  if c = '(' || c = ')' || c = '\\' then ['\\', c] else [c]

/-- Escape a whole string body. -/
def escapeStr : List Char → List Char
  | [] => []
  | c :: cs => escChar c ++ escapeStr cs

mutual

/-- Modelled from the spec: the textual rendering every Datum variant
exposes (§3/§4.1 of the spec; the datum implementation files are
missing from the source tree), written in the token grammar of §4.5:
booleans as words, numbers in decimal, strings parenthesised with
escapes, literal symbols behind the `/` quoting marker, bare executable
names, array literals in square brackets and procedure literals in
curly brackets. -/
def render : Tok → List Char
  | .bool true => ['t', 'r', 'u', 'e']
  | .bool false => ['f', 'a', 'l', 's', 'e']
  | .int n => renderInt n
  | .float m fd => renderFloat m fd
  | .str s => '(' :: escapeStr s ++ [')']
  | .litname s => '/' :: s
  | .execname s => s
  | .array xs => '[' :: renderSeq xs ++ [' ', ']']
  | .proc xs => '\x7b' :: renderSeq xs ++ [' ', '\x7d']
  | .popframe => []

/-- Rendering of a token sequence: each element behind one space. -/
def renderSeq : List Tok → List Char
  | [] => []
  | x :: xs => ' ' :: render x ++ renderSeq xs

end

/-- A scannable symbolic name: nonempty, name characters only. -/
def nameOk (s : List Char) : Bool := !s.isEmpty && s.all isNameChar

/-- The head of a bare executable name: a name character that does not
start a numeric literal. -/
def headWordStart : List Char → Bool
  | [] => false
  | c :: _ => isNameChar c && !c.isDigit

mutual

/-- Well-formedness of a Token with respect to the token grammar of
§4.5: floats carry at least one fraction digit, symbol names consist of
name characters, executable names do not collide with the boolean
words, and the engine-internal `popframe` marker never appears in
program text. -/
def wfTok : Tok → Bool
  | .bool _ => true
  | .int _ => true
  | .float _ fd => decide (1 ≤ fd)
  | .str _ => true
  | .litname s => nameOk s
  | .execname s =>
    nameOk s && headWordStart s &&
      !(s = ['t', 'r', 'u', 'e'] : Bool) && !(s = ['f', 'a', 'l', 's', 'e'] : Bool)
  | .array xs => wfList xs
  | .proc xs => wfList xs
  | .popframe => false

/-- Well-formedness of a Token list. -/
def wfList : List Tok → Bool
  | [] => true
  | x :: xs => wfTok x && wfList xs

end

mutual

/-- The literal Datum variants of the round-trip property: boolean,
integer, float, string, symbol, and arrays of literals. -/
def isLit : Tok → Bool
  | .bool _ => true
  | .int _ => true
  | .float _ _ => true
  | .str _ => true
  | .litname _ => true
  | .array xs => isLitList xs
  | _ => false

/-- Literality of a Token list. -/
def isLitList : List Tok → Bool
  | [] => true
  | x :: xs => isLit x && isLitList xs

end

/-- Skip blanks between tokens. -/
def skipSpaces (cs : List Char) : List Char := cs.dropWhile (fun c => c = ' ')

/-- Modelled from the spec: scanning a string literal body after the
opening parenthesis (§4.5, strings with escape handling; scanner.cc is
missing from the source tree): a backslash takes the following
character literally, an unescaped closing parenthesis ends the
literal.  The flag records a pending backslash. -/
def scanString : Bool → List Char → Option (List Char × List Char)
  | _, [] => none
  | true, c :: cs => (scanString false cs).map (fun p => (c :: p.1, p.2))
  | false, c :: cs =>
    if c = ')' then some ([], cs)
    else if c = '\\' then scanString true cs
    else (scanString false cs).map (fun p => (c :: p.1, p.2))

/-- Modelled from the spec: scanning a numeric literal (§4.5): a digit
run, optionally followed by a point and a fraction digit run; `neg`
records a consumed minus sign. -/
def scanNumber (neg : Bool) (cs : List Char) : Option (Tok × List Char) :=
  let ds := cs.takeWhile Char.isDigit
  let r1 := cs.dropWhile Char.isDigit
  if ds.isEmpty then none
  else
    match r1 with
    | '.' :: r2 =>
      let fs := r2.takeWhile Char.isDigit
      let r3 := r2.dropWhile Char.isDigit
      if fs.isEmpty then none
      else
        some (Tok.float
          (if neg then -(Int.ofNat (digitsToNat (ds ++ fs)))
           else Int.ofNat (digitsToNat (ds ++ fs))) fs.length, r3)
    | _ =>
      some (Tok.int
        (if neg then -(Int.ofNat (digitsToNat ds)) else Int.ofNat (digitsToNat ds)), r1)

mutual

/-- Modelled from the spec: the Scanner/Parser of §4.5 (scanner.cc /
parser.cc are missing from the source tree).  Scan one Token: `/name`
is a literal symbol, `(` opens a string, `[` an eagerly collected array
literal, a curly bracket a procedure literal (non-executable until
invoked), a minus sign or digit a number, and a bare word is `true`,
`false` or an executable name.  The fuel argument bounds the recursion
depth. -/
def scanOne : Nat → List Char → Option (Tok × List Char)
  | 0, _ => none
  | _ + 1, [] => none
  | fuel + 1, c :: cs =>
    if c = '/' then
      let nm := cs.takeWhile isNameChar
      if nm.isEmpty then none
      else some (Tok.litname nm, cs.dropWhile isNameChar)
    else if c = '(' then (scanString false cs).map (fun p => (Tok.str p.1, p.2))
    else if c = '[' then (scanSeq fuel cs ']').map (fun p => (Tok.array p.1, p.2))
    else if c = '\x7b' then (scanSeq fuel cs '\x7d').map (fun p => (Tok.proc p.1, p.2))
    else if c = '-' then scanNumber true cs
    else if c.isDigit then scanNumber false (c :: cs)
    else if isNameChar c then
      let w := (c :: cs).takeWhile isNameChar
      let r := (c :: cs).dropWhile isNameChar
      if w = ['t', 'r', 'u', 'e'] then some (Tok.bool true, r)
      else if w = ['f', 'a', 'l', 's', 'e'] then some (Tok.bool false, r)
      else some (Tok.execname w, r)
    else none

/-- Scan a bracketed token sequence up to the closing delimiter. -/
def scanSeq : Nat → List Char → Char → Option (List Tok × List Char)
  | 0, _, _ => none
  | fuel + 1, cs, close =>
    match skipSpaces cs with
    | [] => none
    | c :: cs2 =>
      if c = close then some ([], cs2)
      else
        match scanOne fuel (c :: cs2) with
        | none => none
        | some (t, r) => (scanSeq fuel r close).map (fun p => (t :: p.1, p.2))

end

/-- Scan a whole program text into its token sequence. -/
def scanTop : Nat → List Char → Option (List Tok)
  | 0, _ => none
  | fuel + 1, cs =>
    match skipSpaces cs with
    | [] => some []
    | c :: cs2 =>
      match scanOne fuel (c :: cs2) with
      | none => none
      | some (t, r) => (scanTop fuel r).map (fun ts => t :: ts)

/-- Parse a program text (a default fuel large enough for any input of
this length). -/
def parseProgram (s : String) : Option (List Tok) :=
  scanTop (2 * s.length + 4) s.toList

/-- Parse a text that should denote exactly one Datum. -/
def parseDatum (s : String) : Option Tok :=
  match parseProgram s with
  | some [d] => some d
  | _ => none

/-- Parse a program text and run it on a fresh machine. -/
def runText (reg : List OpDef) (fuel : Nat) (s : String) : Option Machine :=
  (parseProgram s).map (fun ts => run reg fuel (initM ts))

/-- The scenario program of C7: a procedure that defines a local name,
invoked via `exec`. -/
def defProg (s : List Char) (k : Int) : List Tok :=
  [Tok.proc [Tok.litname s, Tok.int k, Tok.execname defName],
    Tok.execname execName]

/-- The exceptional scenario of C7: the procedure defines `/x` and then
raises UndefinedOperator, so its frame is released by unwinding. -/
def excProg : List Tok :=
  [Tok.proc [Tok.litname ['x'], Tok.int 5, Tok.execname defName,
      Tok.execname ['b', 'o', 'o', 'm']],
    Tok.execname execName]

end Sli

namespace Nest

/-- Time, from nest_time.h (included by event.h); only the step counter
is relevant to `get_rel_delivery_steps`.  `get_steps` returns the stamp
in units of simulation steps. -/
structure Time where
  steps : Int
deriving DecidableEq, Repr

def Time.get_steps (t : Time) : Int := t.steps

/-- The administrative data of class `Event` from nestkernel/event.h:
sender gid, ports, transmission delay `d_` and time stamp `stamp_`.
The floating-point members (`offset_`, `w_`) play no role in the claims
and are omitted. -/
structure Event where
  sender_gid_ : Nat
  p_ : Int
  rp_ : Int
  d_ : Int
  stamp_ : Time
deriving DecidableEq, Repr

/-- `Event::get_rel_delivery_steps` from event.h:
`return stamp_.get_steps() + d_ - 1 - t.get_steps();` -/
def Event.get_rel_delivery_steps (e : Event) (t : Time) : Int :=
  e.stamp_.get_steps + e.d_ - 1 - t.get_steps

/-- `ht_neuron::SynapseTypes` from the ht_neuron header. -/
def INF_SPIKE_RECEPTOR : Int := 0
def AMPA : Int := 1
def NMDA : Int := 2
def GABA_A : Int := 3
def GABA_B : Int := 4
def SUP_SPIKE_RECEPTOR : Int := 5

/-- Exceptions thrown by the embedded nestkernel code. -/
inductive NestError where
  | UnknownReceptorType
deriving DecidableEq, Repr

/-- `ht_neuron::handles_test_event(SpikeEvent&, rport)` from the
ht_neuron header: if the receptor type is not strictly between
`INF_SPIKE_RECEPTOR` and `SUP_SPIKE_RECEPTOR` it throws
`UnknownReceptorType`, otherwise it returns `receptor_type - 1`. -/
def handles_test_event_spike (receptor_type : Int) : Except NestError Int :=
  if ¬(INF_SPIKE_RECEPTOR < receptor_type ∧ receptor_type < SUP_SPIKE_RECEPTOR) then
    Except.error NestError.UnknownReceptorType
  else
    Except.ok (receptor_type - 1)

end Nest

section ListHelpers

variable {α : Type}

theorem listGet_set_self :
    ∀ (l : List α) (i : Nat) (a : α), i < l.length → (l.set i a)[i]? = some a := by
  intro l
  induction l with
  | nil => intro i a h; simp at h
  | cons x xs ih =>
    intro i a h
    cases i with
    | zero => simp
    | succ j =>
      have := ih j a (by simpa using h)
      simpa using this

theorem listGet_append_left :
    ∀ (l l' : List α) (i : Nat), i < l.length → (l ++ l')[i]? = l[i]? := by
  intro l
  induction l with
  | nil => intro l' i h; simp at h
  | cons x xs ih =>
    intro l' i h
    cases i with
    | zero => simp
    | succ j =>
      have := ih l' j (by simpa using h)
      simpa using this

theorem listGet_lt :
    ∀ (l : List α) (i : Nat) (a : α), l[i]? = some a → i < l.length := by
  intro l
  induction l with
  | nil => intro i a h; simp at h
  | cons x xs ih =>
    intro i a h
    cases i with
    | zero => simp
    | succ j =>
      have := ih j a (by simpa using h)
      simpa using Nat.succ_lt_succ this

theorem listGet_append_self :
    ∀ (l : List α) (a : α), (l ++ [a])[l.length]? = some a := by
  intro l
  induction l with
  | nil => intro a; rfl
  | cons x xs ih =>
    intro a
    rw [List.cons_append, List.length_cons, List.getElem?_cons_succ]
    exact ih a

end ListHelpers

namespace SliCow

/-- Claim C3 (auxiliary): after cloning a live handle, mutating through
the clone rewrites a fresh cell and leaves the original cell's value. -/
theorem mutate_after_clone_keeps_original
    (h : Heap) (t : Nat) (f : Sli.Tok → Sli.Tok) (c : Cell)
    (hget : h.cells[t]? = some c) (hrc : 1 ≤ c.rc) :
    getVal (mutate (clone h t).1 (clone h t).2 f).1 t = getVal h t := by
  have hlt : t < h.cells.length := listGet_lt _ _ _ hget
  have hclone : clone h t = (⟨h.cells.set t { c with rc := c.rc + 1 }⟩, t) := by
    unfold clone
    rw [hget]
  rw [hclone]
  have hget2 : (h.cells.set t { c with rc := c.rc + 1 })[t]?
      = some { c with rc := c.rc + 1 } :=
    listGet_set_self _ _ _ (by simpa using hlt)
  have hrc2 : 2 ≤ ({ c with rc := c.rc + 1 } : Cell).rc := by
    simp only []
    omega
  have hmut : mutate ⟨h.cells.set t { c with rc := c.rc + 1 }⟩ t f
      = (⟨(h.cells.set t { c with rc := c.rc + 1 }).set t
            { val := c.val, rc := c.rc + 1 - 1 } ++ [⟨f c.val, 1⟩]⟩,
          (h.cells.set t { c with rc := c.rc + 1 }).length) := by
    unfold mutate
    rw [hget2]
    simp [hrc2]
  rw [hmut]
  have hlen : t < ((h.cells.set t { c with rc := c.rc + 1 }).set t
      { val := c.val, rc := c.rc + 1 - 1 }).length := by
    simpa using hlt
  simp only [getVal]
  rw [listGet_append_left _ _ _ hlen, listGet_set_self _ _ _ (by simpa using hlt), hget]
  rfl

end SliCow

/-- Claim C3: for every Token (a live handle `t` into the shared Datum
heap, holding a reference so its cell's count is at least 1), cloning `t`
and then performing any in-place mutation `f` on the clone leaves the
observable value of the original Token unchanged: the copy-on-write
check sees a shared Datum and clones before mutating. -/
theorem token_cow_isolation
    (h : SliCow.Heap) (t : Nat) (f : Sli.Tok → Sli.Tok) (c : SliCow.Cell)
    (hget : h.cells[t]? = some c) (hrc : 1 ≤ c.rc) :
    SliCow.getVal (SliCow.mutate (SliCow.clone h t).1 (SliCow.clone h t).2 f).1 t
      = SliCow.getVal h t :=
  SliCow.mutate_after_clone_keeps_original h t f c hget hrc

/-- Witness for C3: a one-cell heap holding the integer 7 with count 1;
cloning then overwriting the clone with 9 leaves the original's value 7. -/
theorem token_cow_isolation_witness :
    ((SliCow.Heap.mk [⟨Sli.Tok.int 7, 1⟩]).cells[0]? = some ⟨Sli.Tok.int 7, 1⟩
      ∧ 1 ≤ (1 : Nat)) ∧
    SliCow.getVal
        (SliCow.mutate
          (SliCow.clone (SliCow.Heap.mk [⟨Sli.Tok.int 7, 1⟩]) 0).1
          (SliCow.clone (SliCow.Heap.mk [⟨Sli.Tok.int 7, 1⟩]) 0).2
          (fun _ => Sli.Tok.int 9)).1 0
      = SliCow.getVal (SliCow.Heap.mk [⟨Sli.Tok.int 7, 1⟩]) 0 :=
  ⟨⟨rfl, le_refl 1⟩,
    token_cow_isolation (SliCow.Heap.mk [⟨Sli.Tok.int 7, 1⟩]) 0
      (fun _ => Sli.Tok.int 9) ⟨Sli.Tok.int 7, 1⟩ rfl (le_refl 1)⟩

namespace SliNames

theorem lookupId_get :
    ∀ (l : List String) (s : String) (i : Nat), lookupId l s = some i → l[i]? = some s := by
  intro l
  induction l with
  | nil => intro s i h; simp [lookupId] at h
  | cons x xs ih =>
    intro s i h
    by_cases hx : x = s
    · simp [lookupId, hx] at h
      subst h
      simp [hx]
    · simp [lookupId, hx] at h
      obtain ⟨j, hj, hij⟩ := h
      subst hij
      simpa using ih s j hj

theorem lookupId_cons_none {x : String} {xs : List String} {s : String}
    (h : lookupId (x :: xs) s = none) : x ≠ s ∧ lookupId xs s = none := by
  by_cases hx : x = s
  · simp [lookupId, hx] at h
  · refine ⟨hx, ?_⟩
    simp [lookupId, hx] at h
    exact h

theorem lookupId_none_append :
    ∀ (l : List String) (s : String), lookupId l s = none →
      lookupId (l ++ [s]) s = some l.length := by
  intro l
  induction l with
  | nil => intro s _; simp [lookupId]
  | cons x xs ih =>
    intro s h
    obtain ⟨hx, hxs⟩ := lookupId_cons_none h
    simp [lookupId, hx, ih s hxs]

/-- Idempotence half of C5: a second call with the same string changes
nothing and returns the same identity. -/
theorem intern_idem (t : NameTable) (s : String) :
    intern (intern t s).1 s = intern t s := by
  cases hl : lookupId t.strings s with
  | some i => simp [intern, hl]
  | none =>
    have h2 := lookupId_none_append t.strings s hl
    simp [intern, hl, h2]

/-- After interning, the returned identity indexes the interned string. -/
theorem intern_get (t : NameTable) (s : String) :
    (intern t s).1.strings[(intern t s).2]? = some s := by
  cases hl : lookupId t.strings s with
  | some i =>
    unfold intern
    rw [hl]
    exact lookupId_get t.strings s i hl
  | none =>
    unfold intern
    rw [hl]
    exact listGet_append_self t.strings s

/-- If the string is already in the table, `intern` returns its index. -/
theorem intern_snd_of_some (t : NameTable) (s : String) (j : Nat)
    (hl : lookupId t.strings s = some j) : (intern t s).2 = j := by
  unfold intern
  rw [hl]

/-- If the string is absent, `intern` returns the fresh index. -/
theorem intern_snd_of_none (t : NameTable) (s : String)
    (hl : lookupId t.strings s = none) : (intern t s).2 = t.strings.length := by
  unfold intern
  rw [hl]

end SliNames

/-- Claim C5: `intern` called twice on the same string returns the same
Name identity (and the same table: idempotence), and interning two
distinct strings returns distinct identities — one identity per distinct
string, equality of Names being identity of the returned index. -/
theorem intern_idempotent_and_injective
    (t : SliNames.NameTable) (s s1 s2 : String) :
    SliNames.intern (SliNames.intern t s).1 s = SliNames.intern t s ∧
    (s1 ≠ s2 →
      (SliNames.intern (SliNames.intern t s1).1 s2).2 ≠ (SliNames.intern t s1).2) := by
  refine ⟨SliNames.intern_idem t s, ?_⟩
  intro hne heq
  have hget1 : (SliNames.intern t s1).1.strings[(SliNames.intern t s1).2]? = some s1 :=
    SliNames.intern_get t s1
  cases hl : SliNames.lookupId (SliNames.intern t s1).1.strings s2 with
  | some j =>
    have hn2 : (SliNames.intern (SliNames.intern t s1).1 s2).2 = j :=
      SliNames.intern_snd_of_some _ s2 j hl
    have hget2 : (SliNames.intern t s1).1.strings[j]? = some s2 :=
      SliNames.lookupId_get _ s2 j hl
    rw [hn2] at heq
    rw [heq] at hget2
    rw [hget1] at hget2
    exact hne (by injection hget2)
  | none =>
    have hn2 : (SliNames.intern (SliNames.intern t s1).1 s2).2
        = (SliNames.intern t s1).1.strings.length :=
      SliNames.intern_snd_of_none _ s2 hl
    have hlt : (SliNames.intern t s1).2 < (SliNames.intern t s1).1.strings.length :=
      listGet_lt _ _ _ hget1
    rw [hn2] at heq
    omega

/-- Witness for C5: interning "alpha" then "beta" into the empty table
yields identities 0 and 1. -/
theorem intern_idempotent_and_injective_witness :
    ("alpha" : String) ≠ "beta" ∧
    (SliNames.intern (SliNames.intern ⟨[]⟩ "alpha").1 "beta").2
      ≠ (SliNames.intern ⟨[]⟩ "alpha").2 :=
  ⟨by decide,
    (intern_idempotent_and_injective ⟨[]⟩ "alpha" "alpha" "beta").2 (by decide)⟩

namespace Sli

/-- The separators that may follow a rendered token: end of input, a
blank, or a closing bracket. -/
def sepOK : List Char → Prop
  | [] => True
  | c :: _ => c = ' ' ∨ c = ']' ∨ c = '\x7d'

/-- A character run a predicate will not continue into. -/
def headNot (p : Char → Bool) : List Char → Prop
  | [] => True
  | c :: _ => p c = false

theorem takeWhile_app_of (p : Char → Bool) :
    ∀ (xs rest : List Char), (∀ c ∈ xs, p c = true) → headNot p rest →
      (xs ++ rest).takeWhile p = xs ∧ (xs ++ rest).dropWhile p = rest := by
  intro xs
  induction xs with
  | nil =>
    intro rest _ hrest
    cases rest with
    | nil => exact ⟨rfl, rfl⟩
    | cons c cs =>
      have hc : p c = false := hrest
      constructor
      · simp [List.takeWhile_cons, hc]
      · simp [List.dropWhile_cons, hc]
  | cons x xs ih =>
    intro rest hall hrest
    have hx : p x = true := hall x (by simp)
    have := ih rest (fun c hc => hall c (by simp [hc])) hrest
    constructor
    · simp [List.takeWhile_cons, hx, this.1]
    · simp [List.dropWhile_cons, hx, this.2]

theorem skipSpaces_cons_space (l : List Char) : skipSpaces (' ' :: l) = skipSpaces l := by
  simp [skipSpaces, List.dropWhile_cons]

theorem skipSpaces_no_space (c : Char) (l : List Char) (h : c ≠ ' ') :
    skipSpaces (c :: l) = c :: l := by
  simp [skipSpaces, List.dropWhile_cons, h]

theorem sepOK_headNot_digit (rest : List Char) (h : sepOK rest) :
    headNot Char.isDigit rest := by
  cases rest with
  | nil => trivial
  | cons c cs =>
    rcases h with h | h | h <;> subst h
    · exact (by decide : Char.isDigit ' ' = false)
    · exact (by decide : Char.isDigit ']' = false)
    · exact (by decide : Char.isDigit '\x7d' = false)

theorem sepOK_headNot_name (rest : List Char) (h : sepOK rest) :
    headNot isNameChar rest := by
  cases rest with
  | nil => trivial
  | cons c cs =>
    rcases h with h | h | h <;> subst h
    · exact (by decide : isNameChar ' ' = false)
    · exact (by decide : isNameChar ']' = false)
    · exact (by decide : isNameChar '\x7d' = false)

theorem digit_char_facts :
    ∀ d, d < 10 → Char.isDigit (digitChar d) = true ∧ charToDigit (digitChar d) = d := by
  decide

theorem digit_ne_marks (c : Char) (h : Char.isDigit c = true) :
    c ≠ '/' ∧ c ≠ '(' ∧ c ≠ '[' ∧ c ≠ '\x7b' ∧ c ≠ '-' ∧ c ≠ ' ' ∧ c ≠ ']'
      ∧ c ≠ '\x7d' ∧ c ≠ '.' := by
  refine ⟨?_, ?_, ?_, ?_, ?_, ?_, ?_, ?_, ?_⟩ <;>
    · intro he
      rw [he] at h
      exact absurd h (by decide)

theorem nameChar_ne_marks (c : Char) (h : isNameChar c = true) :
    c ≠ '/' ∧ c ≠ '(' ∧ c ≠ '[' ∧ c ≠ '\x7b' ∧ c ≠ '-' ∧ c ≠ ' ' ∧ c ≠ ']'
      ∧ c ≠ '\x7d' := by
  refine ⟨?_, ?_, ?_, ?_, ?_, ?_, ?_, ?_⟩ <;>
    · intro he
      rw [he] at h
      exact absurd h (by decide)

theorem digitsToNat_append_digit (l : List Char) (c : Char) :
    digitsToNat (l ++ [c]) = 10 * digitsToNat l + charToDigit c := by
  simp [digitsToNat, List.foldl_append]

theorem natDigits_all_digits :
    ∀ (fuel n : Nat) (c : Char), c ∈ natDigits fuel n → Char.isDigit c = true := by
  intro fuel
  induction fuel with
  | zero => intro n c h; simp [natDigits] at h
  | succ f ih =>
    intro n c h
    by_cases hn : n = 0
    · simp [natDigits, hn] at h
    · simp only [natDigits, if_neg hn, List.mem_append] at h
      rcases h with h | h
      · exact ih (n / 10) c h
      · simp at h
        subst h
        exact (digit_char_facts (n % 10) (Nat.mod_lt n (by decide))).1

theorem natDigits_val :
    ∀ (fuel n : Nat), n ≤ fuel → digitsToNat (natDigits fuel n) = n := by
  intro fuel
  induction fuel with
  | zero =>
    intro n h
    interval_cases n
    simp [natDigits, digitsToNat]
  | succ f ih =>
    intro n h
    by_cases hn : n = 0
    · simp [natDigits, hn, digitsToNat]
    · have hlt : n / 10 < n := Nat.div_lt_self (Nat.pos_of_ne_zero hn) (by decide)
      have hle : n / 10 ≤ f := by omega
      rw [natDigits, if_neg hn, digitsToNat_append_digit, ih (n / 10) hle,
        (digit_char_facts (n % 10) (Nat.mod_lt n (by decide))).2]
      omega

theorem renderNat_all_digits (n : Nat) :
    ∀ c ∈ renderNat n, Char.isDigit c = true := by
  intro c hc
  by_cases hn : n = 0
  · simp [renderNat, hn] at hc
    subst hc
    decide
  · rw [renderNat, if_neg hn] at hc
    exact natDigits_all_digits n n c hc

theorem renderNat_val (n : Nat) : digitsToNat (renderNat n) = n := by
  by_cases hn : n = 0
  · simp [renderNat, hn, digitsToNat, charToDigit]
  · rw [renderNat, if_neg hn]
    exact natDigits_val n n (le_refl n)

theorem renderNat_ne_nil (n : Nat) : renderNat n ≠ [] := by
  by_cases hn : n = 0
  · simp [renderNat, hn]
  · rw [renderNat, if_neg hn]
    obtain ⟨f, hf⟩ : ∃ f, n = f + 1 := ⟨n - 1, by omega⟩
    subst hf
    simp [natDigits, hn]

theorem digitsToNat_replicate_zeros (k : Nat) (l : List Char) :
    digitsToNat (List.replicate k '0' ++ l) = digitsToNat l := by
  induction k with
  | zero => simp
  | succ j ih =>
    rw [List.replicate_succ]
    simpa [digitsToNat, charToDigit] using ih

theorem padZeros_all_digits (k : Nat) (l : List Char)
    (h : ∀ c ∈ l, Char.isDigit c = true) :
    ∀ c ∈ padZeros k l, Char.isDigit c = true := by
  intro c hc
  simp only [padZeros, List.mem_append] at hc
  rcases hc with hc | hc
  · have := List.eq_of_mem_replicate hc
    subst this
    decide
  · exact h c hc

theorem padZeros_length (k : Nat) (l : List Char) :
    k ≤ (padZeros k l).length ∧ (padZeros k l).length = (k - l.length) + l.length := by
  constructor
  · simp [padZeros]
    omega
  · simp [padZeros]

theorem padZeros_val (k : Nat) (l : List Char) :
    digitsToNat (padZeros k l) = digitsToNat l :=
  digitsToNat_replicate_zeros (k - l.length) l

theorem scanString_escape :
    ∀ (s rest : List Char), scanString false (escapeStr s ++ ')' :: rest) = some (s, rest) := by
  intro s
  induction s with
  | nil =>
    intro rest
    rfl
  | cons c cs ih =>
    intro rest
    by_cases hc : (c = '(' || c = ')' || c = '\\') = true
    · rw [escapeStr, escChar, if_pos hc]
      simp only [List.cons_append, List.nil_append, List.append_assoc]
      simp [scanString, ih]
    · simp only [Bool.or_eq_true, decide_eq_true_eq] at hc
      push_neg at hc
      rw [escapeStr, escChar, if_neg (by simp [hc.1.1, hc.1.2, hc.2])]
      simp only [List.cons_append, List.nil_append, List.append_assoc]
      simp [scanString, hc.1.2, hc.2, ih]

theorem scanNumber_int_run (neg : Bool) (ds rest : List Char)
    (hne : ds ≠ []) (hdig : ∀ c ∈ ds, Char.isDigit c = true) (hrest : sepOK rest) :
    scanNumber neg (ds ++ rest)
      = some (Tok.int (if neg then -(Int.ofNat (digitsToNat ds))
                       else Int.ofNat (digitsToNat ds)), rest) := by
  obtain ⟨htake, hdrop⟩ :=
    takeWhile_app_of Char.isDigit ds rest hdig (sepOK_headNot_digit rest hrest)
  rw [scanNumber]
  simp only [htake, hdrop]
  obtain ⟨d, ds2, rfl⟩ := List.exists_cons_of_ne_nil hne
  simp only [List.isEmpty_cons, Bool.false_eq_true, if_false]
  cases rest with
  | nil => rfl
  | cons r rs =>
    rcases hrest with h | h | h <;> subst h <;> rfl

theorem scanNumber_float_run (neg : Bool) (ip fp rest : List Char)
    (hipne : ip ≠ []) (hfpne : fp ≠ [])
    (hipd : ∀ c ∈ ip, Char.isDigit c = true)
    (hfpd : ∀ c ∈ fp, Char.isDigit c = true)
    (hrest : sepOK rest) :
    scanNumber neg (ip ++ '.' :: (fp ++ rest))
      = some (Tok.float
          (if neg then -(Int.ofNat (digitsToNat (ip ++ fp)))
           else Int.ofNat (digitsToNat (ip ++ fp))) fp.length, rest) := by
  obtain ⟨htake1, hdrop1⟩ :=
    takeWhile_app_of Char.isDigit ip ('.' :: (fp ++ rest)) hipd
      (by exact (by decide : Char.isDigit '.' = false))
  obtain ⟨htake2, hdrop2⟩ :=
    takeWhile_app_of Char.isDigit fp rest hfpd (sepOK_headNot_digit rest hrest)
  rw [scanNumber]
  simp only [htake1, hdrop1]
  obtain ⟨d, ip2, rfl⟩ := List.exists_cons_of_ne_nil hipne
  simp only [List.isEmpty_cons, Bool.false_eq_true, if_false]
  simp only [htake2, hdrop2]
  obtain ⟨e, fp2, rfl⟩ := List.exists_cons_of_ne_nil hfpne
  simp only [List.isEmpty_cons, Bool.false_eq_true, if_false]

theorem renderNat_shape (n : Nat) :
    ∃ d l, renderNat n = d :: l ∧ Char.isDigit d = true := by
  obtain ⟨d, l, hd⟩ := List.exists_cons_of_ne_nil (renderNat_ne_nil n)
  exact ⟨d, l, hd, renderNat_all_digits n d (by rw [hd]; simp)⟩

theorem renderFloat_shape (m : Int) (fd : Nat) (hfd : 1 ≤ fd) :
    ∃ ip fp,
      renderFloat m fd = (if m < 0 then ['-'] else []) ++ (ip ++ '.' :: fp) ∧
      ip ≠ [] ∧ fp ≠ [] ∧
      (∀ c ∈ ip, Char.isDigit c = true) ∧ (∀ c ∈ fp, Char.isDigit c = true) ∧
      digitsToNat (ip ++ fp) = m.natAbs ∧ fp.length = fd := by
  refine ⟨(padZeros (fd + 1) (renderNat m.natAbs)).take
      ((padZeros (fd + 1) (renderNat m.natAbs)).length - fd),
    (padZeros (fd + 1) (renderNat m.natAbs)).drop
      ((padZeros (fd + 1) (renderNat m.natAbs)).length - fd), ?_, ?_, ?_, ?_, ?_, ?_, ?_⟩
  · rw [renderFloat]
    rw [List.append_assoc]
  · have hlen := (padZeros_length (fd + 1) (renderNat m.natAbs)).1
    apply List.ne_nil_of_length_pos
    rw [List.length_take]
    omega
  · have hlen := (padZeros_length (fd + 1) (renderNat m.natAbs)).1
    apply List.ne_nil_of_length_pos
    rw [List.length_drop]
    omega
  · intro c hc
    exact padZeros_all_digits (fd + 1) (renderNat m.natAbs)
      (renderNat_all_digits m.natAbs) c ((List.take_sublist _ _).subset hc)
  · intro c hc
    exact padZeros_all_digits (fd + 1) (renderNat m.natAbs)
      (renderNat_all_digits m.natAbs) c ((List.drop_sublist _ _).subset hc)
  · rw [List.take_append_drop, padZeros_val, renderNat_val]
  · have hlen := (padZeros_length (fd + 1) (renderNat m.natAbs)).1
    rw [List.length_drop]
    omega

theorem render_cons (x : Tok) (hwf : wfTok x = true) :
    ∃ c cs, render x = c :: cs ∧ c ≠ ' ' ∧ c ≠ ']' ∧ c ≠ '\x7d' := by
  cases x with
  | bool b =>
    cases b
    · exact ⟨'f', _, rfl, by decide, by decide, by decide⟩
    · exact ⟨'t', _, rfl, by decide, by decide, by decide⟩
  | int n =>
    by_cases hn : n < 0
    · refine ⟨'-', renderNat n.natAbs, ?_, by decide, by decide, by decide⟩
      simp [render, renderInt, hn]
    · obtain ⟨d, l, hd, hdig⟩ := renderNat_shape n.natAbs
      refine ⟨d, l, ?_, (digit_ne_marks d hdig).2.2.2.2.2.1,
        (digit_ne_marks d hdig).2.2.2.2.2.2.1, (digit_ne_marks d hdig).2.2.2.2.2.2.2.1⟩
      simp [render, renderInt, hn, hd]
  | float m fd =>
    have hfd : 1 ≤ fd := by
      have := hwf
      simp [wfTok] at this
      exact this
    obtain ⟨ip, fp, hren, hipne, _, hipd, _, _, _⟩ := renderFloat_shape m fd hfd
    obtain ⟨d, ip2, hip⟩ := List.exists_cons_of_ne_nil hipne
    have hdig : Char.isDigit d = true := hipd d (by rw [hip]; simp)
    by_cases hm : m < 0
    · refine ⟨'-', ip ++ '.' :: fp, ?_, by decide, by decide, by decide⟩
      rw [show render (Tok.float m fd) = renderFloat m fd from rfl, hren, if_pos hm]
      rfl
    · refine ⟨d, ip2 ++ '.' :: fp, ?_, (digit_ne_marks d hdig).2.2.2.2.2.1,
        (digit_ne_marks d hdig).2.2.2.2.2.2.1, (digit_ne_marks d hdig).2.2.2.2.2.2.2.1⟩
      rw [show render (Tok.float m fd) = renderFloat m fd from rfl, hren, if_neg hm,
        List.nil_append, hip]
      rfl
  | str s => exact ⟨'(', _, rfl, by decide, by decide, by decide⟩
  | litname s => exact ⟨'/', s, rfl, by decide, by decide, by decide⟩
  | execname s =>
    have h : nameOk s = true := by
      simp only [wfTok, Bool.and_eq_true] at hwf
      exact hwf.1.1.1
    obtain ⟨c, cs, hc⟩ : ∃ c cs, s = c :: cs := by
      cases s with
      | nil => simp [nameOk] at h
      | cons c cs => exact ⟨c, cs, rfl⟩
    have hnc : isNameChar c = true := by
      subst hc
      simp only [nameOk, Bool.and_eq_true, List.all_eq_true] at h
      exact h.2 c (by simp)
    exact ⟨c, cs, by simp [render, hc], (nameChar_ne_marks c hnc).2.2.2.2.2.1,
      (nameChar_ne_marks c hnc).2.2.2.2.2.2.1, (nameChar_ne_marks c hnc).2.2.2.2.2.2.2⟩
  | array xs => exact ⟨'[', _, rfl, by decide, by decide, by decide⟩
  | proc xs => exact ⟨'\x7b', _, rfl, by decide, by decide, by decide⟩
  | popframe => simp [wfTok] at hwf

theorem sepOK_renderSeq (xs : List Tok) (z : List Char) :
    sepOK (renderSeq xs ++ ' ' :: z) := by
  cases xs with
  | nil => exact Or.inl rfl
  | cons x xs => exact Or.inl rfl

theorem scanOne_digit_entry (c : Char) (cs : List Char) (fuel : Nat)
    (hd : c.isDigit = true) :
    scanOne (fuel + 1) (c :: cs) = scanNumber false (c :: cs) := by
  obtain ⟨h1, h2, h3, h4, h5, _, _, _, _⟩ := digit_ne_marks c hd
  rw [scanOne, if_neg h1, if_neg h2, if_neg h3, if_neg h4, if_neg h5, if_pos hd]

theorem scanOne_minus_entry (cs : List Char) (fuel : Nat) :
    scanOne (fuel + 1) ('-' :: cs) = scanNumber true cs := by
  rw [scanOne, if_neg (by decide), if_neg (by decide), if_neg (by decide),
    if_neg (by decide), if_pos rfl]

theorem scanOne_lparen_entry (cs : List Char) (fuel : Nat) :
    scanOne (fuel + 1) ('(' :: cs)
      = (scanString false cs).map (fun p => (Tok.str p.1, p.2)) := by
  rw [scanOne, if_neg (by decide), if_pos rfl]

theorem scanOne_slash_entry (cs : List Char) (fuel : Nat) :
    scanOne (fuel + 1) ('/' :: cs)
      = (if (cs.takeWhile isNameChar).isEmpty then none
         else some (Tok.litname (cs.takeWhile isNameChar), cs.dropWhile isNameChar)) := by
  rw [scanOne, if_pos rfl]

theorem scanOne_lbracket_entry (cs : List Char) (fuel : Nat) :
    scanOne (fuel + 1) ('[' :: cs)
      = (scanSeq fuel cs ']').map (fun p => (Tok.array p.1, p.2)) := by
  rw [scanOne, if_neg (by decide), if_neg (by decide), if_pos rfl]

theorem scanOne_lbrace_entry (cs : List Char) (fuel : Nat) :
    scanOne (fuel + 1) ('\x7b' :: cs)
      = (scanSeq fuel cs '\x7d').map (fun p => (Tok.proc p.1, p.2)) := by
  rw [scanOne, if_neg (by decide), if_neg (by decide), if_neg (by decide), if_pos rfl]

theorem scanOne_word (w rest : List Char) (fuel : Nat)
    (hw : nameOk w = true) (hstart : headWordStart w = true) (hrest : sepOK rest) :
    scanOne (fuel + 1) (w ++ rest)
      = some (if w = ['t', 'r', 'u', 'e'] then Tok.bool true
              else if w = ['f', 'a', 'l', 's', 'e'] then Tok.bool false
              else Tok.execname w, rest) := by
  obtain ⟨c, cs, hc⟩ : ∃ c cs, w = c :: cs := by
    cases w with
    | nil => simp [nameOk] at hw
    | cons c cs => exact ⟨c, cs, rfl⟩
  subst hc
  have hall : ∀ d ∈ c :: cs, isNameChar d = true := by
    simp only [nameOk, Bool.and_eq_true, List.all_eq_true] at hw
    intro d hd
    exact hw.2 d hd
  have hnc : isNameChar c = true := hall c (by simp)
  have hnd : c.isDigit = false := by
    simp only [headWordStart, Bool.and_eq_true, Bool.not_eq_true'] at hstart
    exact hstart.2
  obtain ⟨m1, m2, m3, m4, m5, _, _, _⟩ := nameChar_ne_marks c hnc
  obtain ⟨htake, hdrop⟩ :=
    takeWhile_app_of isNameChar (c :: cs) rest hall (sepOK_headNot_name rest hrest)
  simp only [List.cons_append] at htake hdrop
  rw [List.cons_append, scanOne, if_neg m1, if_neg m2, if_neg m3, if_neg m4, if_neg m5,
    if_neg (by simp [hnd]), if_pos hnc]
  simp only [htake, hdrop]
  split_ifs <;> rfl

theorem tsize_pos (x : Tok) : 1 ≤ tsize x := by
  cases x <;> simp [tsize]

/-- Claim C8 (auxiliary): a rendered token sequence scans back to itself
in front of its closing delimiter, assuming single tokens do. -/
theorem scanSeq_render_of (m : Nat)
    (hone : ∀ x, tsize x ≤ m → wfTok x = true →
      ∀ (rest : List Char) (fuel : Nat), sepOK rest → 2 * tsize x ≤ fuel →
        scanOne fuel (render x ++ rest) = some (x, rest)) :
    ∀ xs, tlsize xs ≤ m → wfList xs = true →
      ∀ (close : Char) (rest : List Char) (fuel : Nat),
        close = ']' ∨ close = '\x7d' → 2 * tlsize xs + 1 ≤ fuel →
        scanSeq fuel (renderSeq xs ++ ' ' :: close :: rest) close = some (xs, rest) := by
  intro xs
  induction xs with
  | nil =>
    intro _ _ close rest fuel hclose hfuel
    obtain ⟨f, rfl⟩ : ∃ f, fuel = f + 1 := ⟨fuel - 1, by omega⟩
    have hcsp : close ≠ ' ' := by
      rcases hclose with h | h <;> (subst h; decide)
    rw [show renderSeq [] ++ ' ' :: close :: rest = ' ' :: close :: rest from rfl,
      scanSeq, skipSpaces_cons_space, skipSpaces_no_space close rest hcsp]
    simp

  | cons x xs2 ih =>
    intro hsz hwf close rest fuel hclose hfuel
    rw [tlsize] at hsz hfuel
    have hpos := tsize_pos x
    simp only [wfList, Bool.and_eq_true] at hwf
    obtain ⟨f, rfl⟩ : ∃ f, fuel = f + 1 := ⟨fuel - 1, by omega⟩
    obtain ⟨c, cs, hrx, hc1, hc2, hc3⟩ := render_cons x hwf.1
    have hstep : renderSeq (x :: xs2) ++ ' ' :: close :: rest
        = ' ' :: (c :: (cs ++ (renderSeq xs2 ++ ' ' :: close :: rest))) := by
      rw [renderSeq, hrx]
      simp [List.cons_append, List.append_assoc]
    have hne : c ≠ close := by
      rcases hclose with h | h <;> (subst h; assumption)
    have hone2 : scanOne f (c :: (cs ++ (renderSeq xs2 ++ ' ' :: close :: rest)))
        = some (x, renderSeq xs2 ++ ' ' :: close :: rest) := by
      have h := hone x (by omega) hwf.1 (renderSeq xs2 ++ ' ' :: close :: rest) f
        (sepOK_renderSeq xs2 (close :: rest)) (by omega)
      rw [hrx, List.cons_append] at h
      exact h
    have hih : scanSeq f (renderSeq xs2 ++ ' ' :: close :: rest) close
        = some (xs2, rest) :=
      ih (by omega) hwf.2 close rest f hclose (by omega)
    rw [hstep, scanSeq, skipSpaces_cons_space,
      skipSpaces_no_space c (cs ++ (renderSeq xs2 ++ ' ' :: close :: rest)) hc1]
    simp only [if_neg hne, hone2, hih, Option.map_some]
    rfl

/-- Claim C8 (auxiliary): a rendered token followed by a separator scans
back to itself, with fuel at least twice its structural size. -/
theorem scanOne_render_le :
    ∀ (m : Nat) (x : Tok), tsize x ≤ m → wfTok x = true →
      ∀ (rest : List Char) (fuel : Nat), sepOK rest → 2 * tsize x ≤ fuel →
        scanOne fuel (render x ++ rest) = some (x, rest) := by
  intro m
  induction m with
  | zero =>
    intro x hx
    have := tsize_pos x
    omega
  | succ m ih =>
    intro x hx hwf rest fuel hrest hfuel
    obtain ⟨f, rfl⟩ : ∃ f, fuel = f + 1 := ⟨fuel - 1, by
      have := tsize_pos x
      omega⟩
    cases x with
    | bool b =>
      cases b
      · rw [show render (Tok.bool false) = ['f', 'a', 'l', 's', 'e'] from rfl,
          scanOne_word ['f', 'a', 'l', 's', 'e'] rest f (by decide) (by decide) hrest]
        rfl
      · rw [show render (Tok.bool true) = ['t', 'r', 'u', 'e'] from rfl,
          scanOne_word ['t', 'r', 'u', 'e'] rest f (by decide) (by decide) hrest]
        rfl
    | int n =>
      by_cases hn : n < 0
      · rw [show render (Tok.int n) = '-' :: renderNat n.natAbs from by
            simp [render, renderInt, hn],
          List.cons_append, scanOne_minus_entry,
          scanNumber_int_run true (renderNat n.natAbs) rest (renderNat_ne_nil _)
            (renderNat_all_digits _) hrest, renderNat_val]
        have hval : -(Int.ofNat n.natAbs) = n := by
          rw [Int.ofNat_eq_natCast]
          omega
        rw [if_pos rfl, hval]
      · rw [show render (Tok.int n) = renderNat n.natAbs from by
            simp [render, renderInt, hn]]
        obtain ⟨d, l, hd, hdig⟩ := renderNat_shape n.natAbs
        rw [hd, List.cons_append, scanOne_digit_entry d (l ++ rest) f hdig,
          ← List.cons_append, ← hd,
          scanNumber_int_run false (renderNat n.natAbs) rest (renderNat_ne_nil _)
            (renderNat_all_digits _) hrest, renderNat_val]
        have hval : Int.ofNat n.natAbs = n := by
          rw [Int.ofNat_eq_natCast]
          omega
        rw [if_neg Bool.false_ne_true, hval]
    | float mm fd =>
      have hfd : 1 ≤ fd := by
        simpa [wfTok] using hwf
      obtain ⟨ip, fp, hren, hipne, hfpne, hipd, hfpd, hval, hlen⟩ :=
        renderFloat_shape mm fd hfd
      by_cases hm : mm < 0
      · rw [show render (Tok.float mm fd) = renderFloat mm fd from rfl, hren,
          if_pos hm]
        have hshape : (['-'] ++ (ip ++ '.' :: fp)) ++ rest
            = '-' :: (ip ++ '.' :: (fp ++ rest)) := by
          simp [List.cons_append, List.append_assoc]
        rw [hshape, scanOne_minus_entry,
          scanNumber_float_run true ip fp rest hipne hfpne hipd hfpd hrest,
          hval, hlen]
        have hv : -(Int.ofNat mm.natAbs) = mm := by
          rw [Int.ofNat_eq_natCast]
          omega
        rw [if_pos rfl, hv]
      · rw [show render (Tok.float mm fd) = renderFloat mm fd from rfl, hren,
          if_neg hm, List.nil_append]
        obtain ⟨d, ip2, hip⟩ := List.exists_cons_of_ne_nil hipne
        have hdig : Char.isDigit d = true := hipd d (by rw [hip]; simp)
        have hshape : (ip ++ '.' :: fp) ++ rest
            = d :: (ip2 ++ '.' :: (fp ++ rest)) := by
          rw [hip]
          simp [List.cons_append, List.append_assoc]
        rw [hshape, scanOne_digit_entry d _ f hdig,
          show d :: (ip2 ++ '.' :: (fp ++ rest)) = ip ++ '.' :: (fp ++ rest) from by
            rw [hip]; simp,
          scanNumber_float_run false ip fp rest hipne hfpne hipd hfpd hrest,
          hval, hlen]
        have hv : Int.ofNat mm.natAbs = mm := by
          rw [Int.ofNat_eq_natCast]
          omega
        rw [if_neg Bool.false_ne_true, hv]
    | str s =>
      have hshape : render (Tok.str s) ++ rest
          = '(' :: (escapeStr s ++ ')' :: rest) := by
        rw [show render (Tok.str s) = '(' :: (escapeStr s ++ [')']) from rfl]
        simp [List.cons_append, List.append_assoc]
      rw [hshape, scanOne_lparen_entry, scanString_escape]
      rfl
    | litname s =>
      have hname : nameOk s = true := by
        simpa [wfTok] using hwf
      have hall : ∀ c ∈ s, isNameChar c = true := by
        simp only [nameOk, Bool.and_eq_true, List.all_eq_true] at hname
        exact hname.2
      obtain ⟨htake, hdrop⟩ :=
        takeWhile_app_of isNameChar s rest hall (sepOK_headNot_name rest hrest)
      obtain ⟨c, cs, hc⟩ : ∃ c cs, s = c :: cs := by
        cases s with
        | nil => simp [nameOk] at hname
        | cons c cs => exact ⟨c, cs, rfl⟩
      rw [show render (Tok.litname s) = '/' :: s from rfl, List.cons_append,
        scanOne_slash_entry, htake, hdrop, hc]
      simp
    | execname s =>
      simp only [wfTok, Bool.and_eq_true, Bool.not_eq_true', decide_eq_false_iff_not]
        at hwf
      rw [show render (Tok.execname s) = s from rfl,
        scanOne_word s rest f hwf.1.1.1 hwf.1.1.2 hrest,
        if_neg hwf.1.2, if_neg hwf.2]
    | array xs =>
      rw [tsize] at hx hfuel
      have hshape : render (Tok.array xs) ++ rest
          = '[' :: (renderSeq xs ++ ' ' :: ']' :: rest) := by
        rw [show render (Tok.array xs) = '[' :: (renderSeq xs ++ [' ', ']']) from rfl]
        simp [List.cons_append, List.append_assoc]
      have hseq := scanSeq_render_of m ih xs (by omega)
        (by simpa [wfTok] using hwf) ']' rest f (Or.inl rfl) (by omega)
      rw [hshape, scanOne_lbracket_entry, hseq]
      rfl
    | proc xs =>
      rw [tsize] at hx hfuel
      have hshape : render (Tok.proc xs) ++ rest
          = '\x7b' :: (renderSeq xs ++ ' ' :: '\x7d' :: rest) := by
        rw [show render (Tok.proc xs)
            = '\x7b' :: (renderSeq xs ++ [' ', '\x7d']) from rfl]
        simp [List.cons_append, List.append_assoc]
      have hseq := scanSeq_render_of m ih xs (by omega)
        (by simpa [wfTok] using hwf) '\x7d' rest f (Or.inr rfl) (by omega)
      rw [hshape, scanOne_lbrace_entry, hseq]
      rfl
    | popframe => simp [wfTok] at hwf

/-- Claim C8 (auxiliary): the token sizes are bounded by the rendering
lengths, so the parser's default fuel suffices. -/
theorem tlsize_le_renderSeq_of (m : Nat)
    (hone : ∀ x, tsize x ≤ m → wfTok x = true → tsize x ≤ (render x).length) :
    ∀ xs, tlsize xs ≤ m → wfList xs = true → tlsize xs ≤ (renderSeq xs).length := by
  intro xs
  induction xs with
  | nil => intro _ _; simp [tlsize, renderSeq]
  | cons x xs2 ih =>
    intro hsz hwf
    rw [tlsize] at hsz ⊢
    simp only [wfList, Bool.and_eq_true] at hwf
    have h1 := hone x (by have := tsize_pos x; omega) hwf.1
    have h2 := ih (by have := tsize_pos x; omega) hwf.2
    rw [renderSeq]
    simp only [List.length_cons, List.length_append]
    omega

theorem tsize_le_render_length :
    ∀ (m : Nat) (x : Tok), tsize x ≤ m → wfTok x = true →
      tsize x ≤ (render x).length := by
  intro m
  induction m with
  | zero =>
    intro x hx
    have := tsize_pos x
    omega
  | succ m ih =>
    intro x hx hwf
    cases x with
    | array xs =>
      rw [tsize] at hx ⊢
      have h := tlsize_le_renderSeq_of m ih xs (by omega) (by simpa [wfTok] using hwf)
      rw [show render (Tok.array xs) = '[' :: (renderSeq xs ++ [' ', ']']) from rfl]
      simp only [List.length_cons, List.length_append]
      omega
    | proc xs =>
      rw [tsize] at hx ⊢
      have h := tlsize_le_renderSeq_of m ih xs (by omega) (by simpa [wfTok] using hwf)
      rw [show render (Tok.proc xs) = '\x7b' :: (renderSeq xs ++ [' ', '\x7d']) from rfl]
      simp only [List.length_cons, List.length_append]
      omega
    | popframe => simp [wfTok] at hwf
    | bool b =>
      obtain ⟨c, cs, hrx, _, _, _⟩ := render_cons (Tok.bool b) hwf
      rw [hrx]
      simp [tsize]
    | int n =>
      obtain ⟨c, cs, hrx, _, _, _⟩ := render_cons (Tok.int n) hwf
      rw [hrx]
      simp [tsize]
    | float mm fd =>
      obtain ⟨c, cs, hrx, _, _, _⟩ := render_cons (Tok.float mm fd) hwf
      rw [hrx]
      simp [tsize]
    | str s =>
      obtain ⟨c, cs, hrx, _, _, _⟩ := render_cons (Tok.str s) hwf
      rw [hrx]
      simp [tsize]
    | litname s =>
      obtain ⟨c, cs, hrx, _, _, _⟩ := render_cons (Tok.litname s) hwf
      rw [hrx]
      simp [tsize]
    | execname s =>
      obtain ⟨c, cs, hrx, _, _, _⟩ := render_cons (Tok.execname s) hwf
      rw [hrx]
      simp [tsize]

/-- Claim C8 (auxiliary): reflexivity of deep equality on token lists. -/
theorem deqList_refl_of (m : Nat)
    (hone : ∀ x, tsize x ≤ m → deq x x = true) :
    ∀ xs, tlsize xs ≤ m → deqList xs xs = true := by
  intro xs
  induction xs with
  | nil => intro _; rfl
  | cons x xs2 ih =>
    intro hsz
    rw [tlsize] at hsz
    have := tsize_pos x
    rw [deqList, Bool.and_eq_true]
    exact ⟨hone x (by omega) , ih (by omega)⟩

theorem deq_refl_le : ∀ (m : Nat) (x : Tok), tsize x ≤ m → deq x x = true := by
  intro m
  induction m with
  | zero =>
    intro x hx
    have := tsize_pos x
    omega
  | succ m ih =>
    intro x hx
    cases x with
    | array xs =>
      rw [tsize] at hx
      rw [deq]
      exact deqList_refl_of m ih xs (by omega)
    | proc xs =>
      rw [tsize] at hx
      rw [deq]
      exact deqList_refl_of m ih xs (by omega)
    | _ => simp [deq]

/-- The deep-equality test is reflexive. -/
theorem deq_refl (x : Tok) : deq x x = true := deq_refl_le (tsize x) x (le_refl _)

/-- Claim C8 (auxiliary): a single rendered token parses back through
the top-level scanner. -/
theorem scanTop_single (x : Tok) (hwf : wfTok x = true) (fuel : Nat)
    (hfuel : 2 * tsize x + 2 ≤ fuel) :
    scanTop fuel (render x) = some [x] := by
  obtain ⟨f, rfl⟩ : ∃ f, fuel = f + 1 := ⟨fuel - 1, by omega⟩
  obtain ⟨c, cs, hrx, hc1, _, _⟩ := render_cons x hwf
  have h1 : scanOne f (c :: cs) = some (x, []) := by
    have h := scanOne_render_le (tsize x) x (le_refl _) hwf [] f trivial (by omega)
    rw [List.append_nil, hrx] at h
    exact h
  rw [scanTop, hrx, skipSpaces_no_space c cs hc1]
  simp only [h1]
  obtain ⟨f2, rfl⟩ : ∃ f2, f = f2 + 1 := ⟨f - 1, by have := tsize_pos x; omega⟩
  rw [scanTop]
  simp [skipSpaces]

end Sli

/-- Claim C1: executing the program text "1 2 add" with `add` registered
for the signature [Integer, Integer] -> Integer (as it is in `baseReg`)
terminates with the Operand Stack holding exactly one Integer Token of
value 3, the Execution Stack empty, and no pending condition. -/
theorem run_one_two_add :
    Sli.runText Sli.baseReg 7 "1 2 add"
      = some { es := [], os := [Sli.Tok.int 3],
               ds := [{ binds := [], handler := false, opDepth := 0 }],
               err := none } := rfl

/-- Claim C6: executing "{ 1 2 add } exec" (a procedure literal
immediately invoked) ends in the same machine state as the flat form
"1 2 add"; a procedure literal that is merely pushed is never executed —
it sits unevaluated on the Operand Stack. -/
theorem proc_literal_exec_equals_flat :
    Sli.runText Sli.baseReg 7 "\x7b 1 2 add \x7d exec"
        = Sli.runText Sli.baseReg 7 "1 2 add" ∧
    Sli.runText Sli.baseReg 7 "\x7b 1 2 add \x7d"
        = some { es := [],
                 os := [Sli.Tok.proc [Sli.Tok.int 1, Sli.Tok.int 2,
                   Sli.Tok.execname Sli.addName]],
                 ds := [{ binds := [], handler := false, opDepth := 0 }],
                 err := none } :=
  ⟨rfl, rfl⟩

set_option maxHeartbeats 1000000 in
/-- Claim C7: a name defined in a procedure's local dictionary frame
("/x 5 def" inside a procedure body, here with an arbitrary name `s` and
value `k`) is not found by lookup after the procedure returns, and the
Dictionary Stack is back to the caller's frames; the same holds on the
exceptional exit path, where the procedure raises after defining and the
frame is released by unwinding. -/
theorem proc_local_binding_released (s : List Char) (k : Int) :
    Sli.lookupDS (Sli.run Sli.baseReg 6 (Sli.initM (Sli.defProg s k))).ds s = none ∧
    (Sli.run Sli.baseReg 6 (Sli.initM (Sli.defProg s k))).ds
      = (Sli.initM (Sli.defProg s k)).ds ∧
    (Sli.run Sli.baseReg 6 (Sli.initM (Sli.defProg s k))).err = none ∧
    (Sli.run Sli.baseReg 6 (Sli.initM (Sli.defProg s k))).es = [] ∧
    Sli.lookupDS (Sli.run Sli.baseReg 6 (Sli.initM Sli.excProg)).ds ['x'] = none ∧
    (Sli.run Sli.baseReg 6 (Sli.initM Sli.excProg)).ds = (Sli.initM Sli.excProg).ds ∧
    (Sli.run Sli.baseReg 6 (Sli.initM Sli.excProg)).err
      = some Sli.Cond.undefinedOperator :=
  ⟨rfl, rfl, rfl, rfl, rfl, rfl, rfl⟩

/-- Claim C2: for every operator name registered only with the signature
[Integer, Integer] (the registry's entries for that name are exactly one
binding with that signature), dispatch succeeds when the two topmost
operand types are Integer, fails with ArgumentUnderflow when only one
Integer operand is present, and fails with TypeMismatch when the operand
types are [String, Integer] (no matching signature). -/
theorem dispatch_int_int_only
    (reg : List Sli.OpDef) (n : List Char) (op : Sli.OpDef)
    (rest : List Sli.TypeTag)
    (hfilter : reg.filter (fun o => o.name == n) = [op])
    (hsig : op.sig = [Sli.TypeTag.intT, Sli.TypeTag.intT]) :
    Sli.dispatch reg n (Sli.TypeTag.intT :: Sli.TypeTag.intT :: rest) = Except.ok op ∧
    Sli.dispatch reg n [Sli.TypeTag.intT] = Except.error Sli.Cond.argumentUnderflow ∧
    Sli.dispatch reg n (Sli.TypeTag.strT :: Sli.TypeTag.intT :: rest)
      = Except.error Sli.Cond.typeMismatch := by
  refine ⟨?_, ?_, ?_⟩ <;>
    · unfold Sli.dispatch
      rw [hfilter]
      simp [Sli.pickBest, Sli.matchesSig, Sli.minSigLen, hsig]

/-- Witness for C2: in the base registry, `add` is registered exactly
once, with signature [Integer, Integer], and dispatch on two Integers
resolves to it. -/
theorem dispatch_int_int_only_witness :
    (Sli.baseReg.filter (fun o => o.name == Sli.addName) = [Sli.addOp]
      ∧ Sli.addOp.sig = [Sli.TypeTag.intT, Sli.TypeTag.intT]) ∧
    Sli.dispatch Sli.baseReg Sli.addName [Sli.TypeTag.intT, Sli.TypeTag.intT]
      = Except.ok Sli.addOp :=
  ⟨⟨rfl, rfl⟩,
    (dispatch_int_int_only Sli.baseReg Sli.addName Sli.addOp [] rfl rfl).1⟩

namespace Sli

/-- Claim C4 (auxiliary): `dropToHandler` stops exactly at the nearest
frame marked as a handler, discarding the intervening frames. -/
theorem dropToHandler_finds_nearest :
    ∀ (fs : List Frame) (h : Frame) (rest : List Frame),
      (∀ f ∈ fs, f.handler = false) → h.handler = true →
      dropToHandler (fs ++ h :: rest) = some (h, rest) := by
  intro fs
  induction fs with
  | nil =>
    intro h rest _ hh
    simp [dropToHandler, hh]
  | cons f fs ih =>
    intro h rest hfs hh
    have hf : f.handler = false := hfs f (by simp)
    simp only [List.cons_append, dropToHandler, hf]
    simpa using ih h rest (fun g hg => hfs g (by simp [hg])) hh

end Sli

/-- Claim C4: when a condition is raised while executing inside
procedure frames entered from a handler frame (the Dictionary Stack is
the intervening non-handler frames `fs` on top of the handler `h`),
unwinding stops exactly at that handler: the intervening frames and
their bindings are gone, the Operand Stack is cut back to the depth
recorded at handler entry, the condition is delivered, and the
Dictionary Stack depth equals its depth before the call (`h` on top of
`rest`). -/
theorem condition_unwinds_to_nearest_handler
    (c : Sli.Cond) (m : Sli.Machine) (fs rest : List Sli.Frame) (h : Sli.Frame)
    (hds : m.ds = fs ++ h :: rest)
    (hfs : ∀ f ∈ fs, f.handler = false)
    (hh : h.handler = true)
    (hdepth : h.opDepth ≤ m.os.length) :
    (Sli.unwind c m).ds = h :: rest ∧
    (Sli.unwind c m).os.length = h.opDepth ∧
    (Sli.unwind c m).os = m.os.drop (m.os.length - h.opDepth) ∧
    (Sli.unwind c m).ds.length = (h :: rest).length ∧
    (Sli.unwind c m).err = some c := by
  have hdrop : Sli.dropToHandler m.ds = some (h, rest) := by
    rw [hds]
    exact Sli.dropToHandler_finds_nearest fs h rest hfs hh
  have hu : Sli.unwind c m
      = { es := [], os := m.os.drop (m.os.length - h.opDepth), ds := h :: rest,
          err := some c } := by
    unfold Sli.unwind
    rw [hdrop]
  rw [hu]
  refine ⟨rfl, ?_, rfl, rfl, rfl⟩
  simp only [List.length_drop]
  omega

/-- Witness for C4: one intervening procedure frame above a handler that
recorded operand depth 1; unwinding from operand depth 2 restores depth 1
and leaves the handler on top of the global frame. -/
theorem condition_unwinds_to_nearest_handler_witness :
    ((Sli.Machine.mk [] [Sli.Tok.int 2, Sli.Tok.int 1]
        [⟨[], false, 1⟩, ⟨[], true, 1⟩, ⟨[], false, 0⟩] none).ds
        = [⟨[], false, 1⟩] ++ (⟨[], true, 1⟩ : Sli.Frame) :: [⟨[], false, 0⟩]
      ∧ (⟨[], true, 1⟩ : Sli.Frame).handler = true
      ∧ (⟨[], true, 1⟩ : Sli.Frame).opDepth
          ≤ (Sli.Machine.mk [] [Sli.Tok.int 2, Sli.Tok.int 1]
              [⟨[], false, 1⟩, ⟨[], true, 1⟩, ⟨[], false, 0⟩] none).os.length) ∧
    (Sli.unwind Sli.Cond.hostError
        (Sli.Machine.mk [] [Sli.Tok.int 2, Sli.Tok.int 1]
          [⟨[], false, 1⟩, ⟨[], true, 1⟩, ⟨[], false, 0⟩] none)).ds
      = (⟨[], true, 1⟩ : Sli.Frame) :: [⟨[], false, 0⟩] ∧
    (Sli.unwind Sli.Cond.hostError
        (Sli.Machine.mk [] [Sli.Tok.int 2, Sli.Tok.int 1]
          [⟨[], false, 1⟩, ⟨[], true, 1⟩, ⟨[], false, 0⟩] none)).os.length = 1 :=
  ⟨⟨rfl, rfl, by simp⟩,
    (condition_unwinds_to_nearest_handler Sli.Cond.hostError
      (Sli.Machine.mk [] [Sli.Tok.int 2, Sli.Tok.int 1]
        [⟨[], false, 1⟩, ⟨[], true, 1⟩, ⟨[], false, 0⟩] none)
      [⟨[], false, 1⟩] [⟨[], false, 0⟩] ⟨[], true, 1⟩ rfl
      (by intro f hf; simp at hf; rw [hf]) rfl (by simp)).1,
    (condition_unwinds_to_nearest_handler Sli.Cond.hostError
      (Sli.Machine.mk [] [Sli.Tok.int 2, Sli.Tok.int 1]
        [⟨[], false, 1⟩, ⟨[], true, 1⟩, ⟨[], false, 0⟩] none)
      [⟨[], false, 1⟩] [⟨[], false, 0⟩] ⟨[], true, 1⟩ rfl
      (by intro f hf; simp at hf; rw [hf]) rfl (by simp)).2.1⟩

/-- Claim C8: for every Datum of a literal variant (boolean, integer,
float, string, symbol, array of literals) that the token grammar can
denote, rendering it to text and re-parsing that text through the
Scanner/Parser yields a value equal to the original by the Datum
deep-equality test. -/
theorem datum_render_reparse_roundtrip (d : Sli.Tok)
    (_hlit : Sli.isLit d = true) (hwf : Sli.wfTok d = true) :
    ∃ e, Sli.parseDatum (String.mk (Sli.render d)) = some e ∧ Sli.deq d e = true := by
  refine ⟨d, ?_, Sli.deq_refl d⟩
  have hp : Sli.parseProgram (String.mk (Sli.render d)) = some [d] := by
    rw [Sli.parseProgram]
    rw [show (String.mk (Sli.render d)).length = (Sli.render d).length from rfl,
      show (String.mk (Sli.render d)).toList = Sli.render d from rfl]
    refine Sli.scanTop_single d hwf _ ?_
    have h := Sli.tsize_le_render_length (Sli.tsize d) d (le_refl _) hwf
    omega
  rw [Sli.parseDatum, hp]

/-- Witness for C8: a composite literal — an array holding a negative
integer, a string with delimiters and a blank inside, a symbol, a float
and a boolean — renders and re-parses to a deeply-equal value. -/
theorem datum_render_reparse_roundtrip_witness :
    (Sli.isLit (Sli.Tok.array [Sli.Tok.int (-4), Sli.Tok.str ['a', ' ', '(', ')'],
        Sli.Tok.litname ['f', 'o', 'o'], Sli.Tok.float 7 1, Sli.Tok.bool true]) = true
      ∧ Sli.wfTok (Sli.Tok.array [Sli.Tok.int (-4), Sli.Tok.str ['a', ' ', '(', ')'],
        Sli.Tok.litname ['f', 'o', 'o'], Sli.Tok.float 7 1, Sli.Tok.bool true]) = true) ∧
    (∃ e, Sli.parseDatum (String.mk (Sli.render
        (Sli.Tok.array [Sli.Tok.int (-4), Sli.Tok.str ['a', ' ', '(', ')'],
          Sli.Tok.litname ['f', 'o', 'o'], Sli.Tok.float 7 1, Sli.Tok.bool true])))
        = some e ∧
      Sli.deq (Sli.Tok.array [Sli.Tok.int (-4), Sli.Tok.str ['a', ' ', '(', ')'],
        Sli.Tok.litname ['f', 'o', 'o'], Sli.Tok.float 7 1, Sli.Tok.bool true]) e
        = true) :=
  ⟨⟨rfl, rfl⟩,
    datum_render_reparse_roundtrip
      (Sli.Tok.array [Sli.Tok.int (-4), Sli.Tok.str ['a', ' ', '(', ')'],
        Sli.Tok.litname ['f', 'o', 'o'], Sli.Tok.float 7 1, Sli.Tok.bool true])
      rfl rfl⟩

/-- Claim C9: for every Event with time stamp `stamp_`, delay `d_` and every
reference Time `t`, `Event::get_rel_delivery_steps(t)` returns exactly
`stamp_.get_steps() + d_ - 1 - t.get_steps()`. -/
theorem event_get_rel_delivery_steps_formula (e : Nest.Event) (t : Nest.Time) :
    e.get_rel_delivery_steps t = e.stamp_.get_steps + e.d_ - 1 - t.get_steps := rfl

/-- Claim C10: `ht_neuron::handles_test_event(SpikeEvent&, r)` returns `r - 1`
for `r` strictly between 0 and `SUP_SPIKE_RECEPTOR` (the four receptors
AMPA/NMDA/GABA_A/GABA_B), throws `UnknownReceptorType` for every other `r`,
and never returns a value outside {0, 1, 2, 3}. -/
theorem ht_neuron_handles_test_event_spike (r : Int) :
    (0 < r ∧ r < 5 → Nest.handles_test_event_spike r = Except.ok (r - 1)) ∧
    (r ≤ 0 ∨ 5 ≤ r →
      Nest.handles_test_event_spike r = Except.error Nest.NestError.UnknownReceptorType) ∧
    (∀ v, Nest.handles_test_event_spike r = Except.ok v → 0 ≤ v ∧ v ≤ 3) := by
  refine ⟨?_, ?_, ?_⟩
  · intro h
    simp only [Nest.handles_test_event_spike, Nest.INF_SPIKE_RECEPTOR,
      Nest.SUP_SPIKE_RECEPTOR]
    rw [if_neg]
    simp only [not_not]
    exact h
  · intro h
    simp only [Nest.handles_test_event_spike, Nest.INF_SPIKE_RECEPTOR,
      Nest.SUP_SPIKE_RECEPTOR]
    rw [if_pos]
    omega
  · intro v hv
    simp only [Nest.handles_test_event_spike, Nest.INF_SPIKE_RECEPTOR,
      Nest.SUP_SPIKE_RECEPTOR] at hv
    by_cases h : 0 < r ∧ r < 5
    · rw [if_neg (by simpa using h)] at hv
      cases hv
      omega
    · rw [if_pos (by simpa using h)] at hv
      cases hv

/-- Witness for C10 at receptor 3 (GABA_A): the call succeeds and
returns port 2. -/
theorem ht_neuron_handles_test_event_spike_witness :
    ((0 : Int) < 3 ∧ (3 : Int) < 5) ∧
      Nest.handles_test_event_spike 3 = Except.ok 2 :=
  ⟨by decide, (ht_neuron_handles_test_event_spike 3).1 (by decide)⟩
